import Mathlib

/-!
Verification of the simple-smtp protocol state machine (`src/email.rs`)
and of the worker-pool contract from the design document.

Strings are embedded as `List Char`; the string operations used by the
source (`trim`, `to_uppercase`, `starts_with`, byte slicing by a keyword
length, `len`, concatenation) are modelled on ASCII text, where Rust and
this embedding agree character for character.
-/

namespace SimpleSmtp

/-- Character lists stand in for Rust `String` / `&str` values. -/
abbrev Str := List Char

/-- Turn a Lean string literal into the embedded representation. -/
def lit (s : String) : Str := s.data

/-- Rust `char::is_whitespace`, restricted to the ASCII whitespace that
line-oriented SMTP traffic contains. -/
def isWs (c : Char) : Bool := c == ' ' || c == '\t' || c == '\n' || c == '\r'

/-- Leading-whitespace removal, one half of Rust `str::trim`. -/
def trimLeft (s : Str) : Str := s.dropWhile isWs

/-- Trailing-whitespace removal, the other half of Rust `str::trim`. -/
def trimRight (s : Str) : Str := (s.reverse.dropWhile isWs).reverse

/-- Rust `str::trim`. -/
def trim (s : Str) : Str := trimRight (trimLeft s)

/-- Rust `str::to_uppercase` on ASCII text (character-wise upcasing). -/
def toUpper (s : Str) : Str := s.map Char.toUpper

/-- Rust `str::starts_with`. -/
def startsWith : Str → Str → Bool
  | _, [] => true
  | [], _ :: _ => false
  | c :: s, p :: ps => c == p && startsWith s ps

/-- The envelope accumulated per connection (`struct Mail`). -/
structure Mail where
  helo : Option Str
  mail_from : Option Str
  rcpt_to : List Str
  data : Option Str
deriving DecidableEq, Repr

/-- `Mail::new`. -/
def Mail.new : Mail := ⟨none, none, [], none⟩

/-- `Mail::add_hello`: stores the trimmed argument. -/
def Mail.add_hello (m : Mail) (hello : Str) : Mail :=
  { m with helo := some (trim hello) }

/-- `Mail::add_mail_from`: stores the trimmed argument. -/
def Mail.add_mail_from (m : Mail) (mf : Str) : Mail :=
  { m with mail_from := some (trim mf) }

/-- `Mail::add_rcpt_to`: pushes the trimmed argument. -/
def Mail.add_rcpt_to (m : Mail) (r : Str) : Mail :=
  { m with rcpt_to := m.rcpt_to ++ [trim r] }

/-- `Mail::add_data_chunk`: appends the raw chunk to `data`. -/
def Mail.add_data_chunk (m : Mail) (chunk : Str) : Mail :=
  match m.data with
  | none => { m with data := some chunk }
  | some s => { m with data := some (s ++ chunk) }

/-- The protocol states (`enum State` in the source; the design document
names `Hello` "Greeted" and `Quit` "Done"). -/
inductive State where
  | New | Hello | MailFrom | RcptTo | Data | Quit
deriving DecidableEq, Repr

/-- `struct MailFSM`. -/
structure MailFSM where
  current_state : State
  server_name : Str
  mail : Mail
deriving DecidableEq, Repr

/-- `MailFSM::new`. -/
def MailFSM.new (server_name : Str) : MailFSM :=
  ⟨State.New, server_name, Mail.new⟩

def HELO : Str := lit "HELO"
def EHLO : Str := lit "EHLO"
def MAIL_FROM : Str := lit "MAIL FROM:"
def RCPT_TO : Str := lit "RCPT TO:"
def DATA : Str := lit "DATA"
def QUIT : Str := lit "QUIT"
def DOT : Str := lit "."

/-- `MailFSM::process_line`, returning the updated machine together with
the optional response.  The guard order of the Rust `match` is kept. -/
def MailFSM.process_line (fsm : MailFSM) (line : Str) : MailFSM × Option Str :=
  let curated_line := toUpper (trim line)
  match fsm.current_state with
  | State.New =>
      if startsWith curated_line HELO || startsWith curated_line EHLO then
        ({ fsm with
            mail := fsm.mail.add_hello ((trim line).drop HELO.length),
            current_state := State.Hello },
          some (lit "250 " ++ fsm.server_name ++ lit "\n"))
      else (fsm, some (lit "Unknown command"))
  | State.Hello =>
      if startsWith curated_line MAIL_FROM then
        ({ fsm with
            mail := fsm.mail.add_mail_from ((trim line).drop MAIL_FROM.length),
            current_state := State.MailFrom },
          some (lit "250 Ok\n"))
      else (fsm, some (lit "Unknown command"))
  | State.MailFrom =>
      if startsWith curated_line RCPT_TO then
        ({ fsm with
            mail := fsm.mail.add_rcpt_to ((trim line).drop RCPT_TO.length),
            current_state := State.RcptTo },
          some (lit "250 Ok\n"))
      else (fsm, some (lit "Unknown command"))
  | State.RcptTo =>
      if startsWith curated_line RCPT_TO then
        ({ fsm with mail := fsm.mail.add_rcpt_to ((trim line).drop RCPT_TO.length) },
          some (lit "250 Ok\n"))
      else if startsWith curated_line DATA then
        ({ fsm with
            mail := fsm.mail.add_rcpt_to ((trim line).drop DATA.length),
            current_state := State.Data },
          some (lit "354 End data with <CR><LF>.<CR><LF>\n"))
      else (fsm, some (lit "Unknown command"))
  | State.Data =>
      if trim line == DOT then
        (fsm, some (lit "250 Ok: queued as " ++
          Nat.toDigits 10 (fsm.mail.data.getD []).length ++ lit "\n"))
      else if startsWith curated_line QUIT then
        ({ fsm with current_state := State.Quit }, some (lit "221 Bye\n"))
      else
        ({ fsm with mail := fsm.mail.add_data_chunk line }, none)
  | State.Quit => (fsm, some (lit "Unknown command"))

/-- `MailFSM::is_finished`. -/
def MailFSM.is_finished (fsm : MailFSM) : Bool :=
  fsm.current_state == State.Quit

/-- `MailFSM::greeting`. -/
def MailFSM.greeting (fsm : MailFSM) : Str :=
  lit "220 " ++ fsm.server_name ++ lit " simple-smtp\n"

/-- Drive the machine over a list of input lines, collecting every
per-line result (the connection-handler loop of `lib.rs`, with I/O
abstracted away). -/
def runLines (fsm : MailFSM) : List Str → MailFSM × List (Option Str)
  | [] => (fsm, [])
  | l :: ls =>
      let s := fsm.process_line l
      let rest := runLines s.1 ls
      (rest.1, s.2 :: rest.2)

/-- The machine after processing a list of lines. -/
def processLines (fsm : MailFSM) (ls : List Str) : MailFSM :=
  (runLines fsm ls).1

/-- Position of a state along the forward order
New → Hello → MailFrom → RcptTo → Data → Quit of the protocol. -/
def stateIdx : State → Nat
  | State.New => 0
  | State.Hello => 1
  | State.MailFrom => 2
  | State.RcptTo => 3
  | State.Data => 4
  | State.Quit => 5

/-- The QUIT guard of `process_line`: the trimmed, upper-cased line starts
with the QUIT keyword. -/
def quitCond (l : Str) : Bool := startsWith (toUpper (trim l)) QUIT

/-- The disjunction of the guards `process_line` tests in a given state;
a line failing this falls through to the catch-all `_` arm (in the `Data`
state every line is handled, so the predicate is `true` there). -/
def accepts (s : State) (l : Str) : Bool :=
  match s with
  | State.New =>
      startsWith (toUpper (trim l)) HELO || startsWith (toUpper (trim l)) EHLO
  | State.Hello => startsWith (toUpper (trim l)) MAIL_FROM
  | State.MailFrom => startsWith (toUpper (trim l)) RCPT_TO
  | State.RcptTo =>
      startsWith (toUpper (trim l)) RCPT_TO || startsWith (toUpper (trim l)) DATA
  | State.Data => true
  | State.Quit => false

/-- Concatenation of a list of chunks, no delimiter inserted. -/
def concatAll : List Str → Str
  | [] => []
  | b :: bs => b ++ concatAll bs

/-- The `data` field after appending a list of body chunks with
`add_data_chunk`: untouched when no chunk arrives, otherwise the previous
content (empty when unset) followed by every chunk in order. -/
def dataAppend (d : Option Str) (bs : List Str) : Option Str :=
  match bs with
  | [] => d
  | _ :: _ => some (d.getD [] ++ concatAll bs)

/-- A string carrying no leading and no trailing whitespace, i.e. one
that `str::trim` leaves unchanged. -/
abbrev Clean (a : Str) : Prop := trimLeft a = a ∧ trimRight a = a

/-- Modelled from the spec: the worker pool of section 4.2 (its source,
`src/thread_pool.rs`, is declared by `lib.rs` but absent from the
repository sources).  A pool of capacity `N` keeps a count of jobs
currently executing on workers and of submitted jobs still queued. -/
structure PoolState where
  capacity : Nat
  running : Nat
  pending : Nat
deriving DecidableEq, Repr

/-- Modelled from the spec: the pool's events.  A caller may enqueue a
job at any time; an idle worker (one of `capacity` many, so only while
`running < capacity`) may pick a queued job; a running job may finish and
free its worker. -/
inductive PoolStep : PoolState → PoolState → Prop where
  | submit (N r p : Nat) : PoolStep ⟨N, r, p⟩ ⟨N, r, p + 1⟩
  | dispatch (N r p : Nat) : r < N → PoolStep ⟨N, r, p + 1⟩ ⟨N, r + 1, p⟩
  | finish (N r p : Nat) : PoolStep ⟨N, r + 1, p⟩ ⟨N, r, p⟩

/-- Reachability under pool events. -/
inductive PoolReach : PoolState → PoolState → Prop where
  | refl (s : PoolState) : PoolReach s s
  | tail {s t u : PoolState} : PoolReach s t → PoolStep t u → PoolReach s u

/-! ### Helper lemmas on the string operations -/

theorem length_dropWhile_ws (l : Str) : (l.dropWhile isWs).length ≤ l.length := by
  induction l with
  | nil => simp
  | cons c t ih =>
      rw [List.dropWhile_cons]
      cases hw : isWs c with
      | false => simp
      | true => simp only [if_pos rfl]; exact Nat.le_trans ih (Nat.le_succ _)

theorem dropWhile_ws_append (l m : Str) (hl : l ≠ []) (h : l.dropWhile isWs = l) :
    (l ++ m).dropWhile isWs = l ++ m := by
  cases l with
  | nil => exact absurd rfl hl
  | cons c t =>
      rw [List.dropWhile_cons] at h
      rw [List.cons_append, List.dropWhile_cons]
      cases hw : isWs c with
      | false => simp
      | true =>
          simp only [hw, if_true] at h
          have hlen := length_dropWhile_ws t
          rw [h] at hlen
          simp at hlen

theorem trimLeft_append (l m : Str) (hl : l ≠ []) (h : trimLeft l = l) :
    trimLeft (l ++ m) = l ++ m :=
  dropWhile_ws_append l m hl h

theorem trimRight_append (l m : Str) (hm : m ≠ []) (h : trimRight m = m) :
    trimRight (l ++ m) = l ++ m := by
  unfold trimRight at h ⊢
  have h' : m.reverse.dropWhile isWs = m.reverse := by
    have := congrArg List.reverse h
    simpa using this
  have hm' : m.reverse ≠ [] := by simpa using hm
  rw [List.reverse_append, dropWhile_ws_append _ _ hm' h']
  simp

theorem trim_of_clean (a : Str) (h : Clean a) : trim a = a := by
  unfold trim
  rw [h.1, h.2]

theorem trimRight_cons (c : Char) (a : Str) (h0 : a ≠ []) (h : trimRight a = a) :
    trimRight (c :: a) = c :: a := by
  have := trimRight_append [c] a h0 h
  simpa using this

theorem trim_space_arg (a : Str) (h : Clean a) : trim (' ' :: a) = a := by
  have hsp : isWs ' ' = true := by decide
  unfold trim trimLeft
  rw [List.dropWhile_cons, if_pos hsp]
  exact (congrArg trimRight h.1).trans h.2

theorem trimRight_snoc_ws (l : Str) (c : Char) (hc : isWs c = true) :
    trimRight (l ++ [c]) = trimRight l := by
  unfold trimRight
  rw [List.reverse_append]
  simp [List.dropWhile_cons, hc]

theorem trim_kw_nil (p : Str) (hp : Clean p) (hp0 : p ≠ []) :
    trim (p ++ [' ']) = p := by
  unfold trim
  rw [trimLeft_append p [' '] hp0 hp.1, trimRight_snoc_ws p ' ' (by decide)]
  exact hp.2

theorem trim_kw_cons (p a : Str) (hp : Clean p) (hp0 : p ≠ []) (ha : Clean a)
    (ha0 : a ≠ []) : trim (p ++ ' ' :: a) = p ++ ' ' :: a := by
  unfold trim
  rw [trimLeft_append p (' ' :: a) hp0 hp.1]
  exact trimRight_append p (' ' :: a) (by simp) (trimRight_cons ' ' a ha0 ha.2)

theorem toUpper_append (x y : Str) : toUpper (x ++ y) = toUpper x ++ toUpper y :=
  List.map_append _ x y

theorem startsWith_append_self (p s : Str) : startsWith (p ++ s) p = true := by
  induction p with
  | nil => simp [startsWith]
  | cons c ps ih => simp [startsWith, ih]

theorem startsWith_self (s : Str) : startsWith s s = true := by
  simpa using startsWith_append_self s []

theorem kw_guard (p a : Str) (hp : Clean p) (hp0 : p ≠ []) (hup : toUpper p = p)
    (ha : Clean a) : startsWith (toUpper (trim (p ++ ' ' :: a))) p = true := by
  cases a with
  | nil =>
      rw [show p ++ ' ' :: ([] : Str) = p ++ [' '] from rfl, trim_kw_nil p hp hp0, hup]
      exact startsWith_self p
  | cons b t =>
      rw [trim_kw_cons p (b :: t) hp hp0 ha (by simp), toUpper_append, hup]
      exact startsWith_append_self p _

theorem kw_arg (p a : Str) (hp : Clean p) (hp0 : p ≠ []) (ha : Clean a) :
    trim ((trim (p ++ ' ' :: a)).drop p.length) = a := by
  cases a with
  | nil =>
      rw [show p ++ ' ' :: ([] : Str) = p ++ [' '] from rfl, trim_kw_nil p hp hp0,
        List.drop_length]
      rfl
  | cons b t =>
      rw [trim_kw_cons p (b :: t) hp hp0 ha (by simp), List.drop_left]
      exact trim_space_arg _ ha

/-! ### Single-step behaviour of `process_line` -/

theorem step_new_helo (name : Str) (m : Mail) (a : Str) (ha : Clean a) :
    MailFSM.process_line ⟨State.New, name, m⟩ (HELO ++ ' ' :: a) =
      (⟨State.Hello, name, { m with helo := some a }⟩,
        some (lit "250 " ++ name ++ lit "\n")) := by
  have hg := kw_guard HELO a (by decide) (by decide) (by decide) ha
  have harg := kw_arg HELO a (by decide) (by decide) ha
  simp [MailFSM.process_line, Mail.add_hello, hg, harg]

theorem step_hello_mail (name : Str) (m : Mail) (f : Str) (hf : Clean f) :
    MailFSM.process_line ⟨State.Hello, name, m⟩ (MAIL_FROM ++ ' ' :: f) =
      (⟨State.MailFrom, name, { m with mail_from := some f }⟩,
        some (lit "250 Ok\n")) := by
  have hg := kw_guard MAIL_FROM f (by decide) (by decide) (by decide) hf
  have harg := kw_arg MAIL_FROM f (by decide) (by decide) hf
  simp [MailFSM.process_line, Mail.add_mail_from, hg, harg]

theorem step_mailfrom_rcpt (name : Str) (m : Mail) (r : Str) (hr : Clean r) :
    MailFSM.process_line ⟨State.MailFrom, name, m⟩ (RCPT_TO ++ ' ' :: r) =
      (⟨State.RcptTo, name, { m with rcpt_to := m.rcpt_to ++ [r] }⟩,
        some (lit "250 Ok\n")) := by
  have hg := kw_guard RCPT_TO r (by decide) (by decide) (by decide) hr
  have harg := kw_arg RCPT_TO r (by decide) (by decide) hr
  simp [MailFSM.process_line, Mail.add_rcpt_to, hg, harg]

theorem step_rcpt_rcpt (name : Str) (m : Mail) (r : Str) (hr : Clean r) :
    MailFSM.process_line ⟨State.RcptTo, name, m⟩ (RCPT_TO ++ ' ' :: r) =
      (⟨State.RcptTo, name, { m with rcpt_to := m.rcpt_to ++ [r] }⟩,
        some (lit "250 Ok\n")) := by
  have hg := kw_guard RCPT_TO r (by decide) (by decide) (by decide) hr
  have harg := kw_arg RCPT_TO r (by decide) (by decide) hr
  simp [MailFSM.process_line, Mail.add_rcpt_to, hg, harg]

theorem step_rcpt_data (name : Str) (m : Mail) :
    MailFSM.process_line ⟨State.RcptTo, name, m⟩ DATA =
      (⟨State.Data, name, { m with rcpt_to := m.rcpt_to ++ [[]] }⟩,
        some (lit "354 End data with <CR><LF>.<CR><LF>\n")) := by
  have h1 : startsWith (toUpper (trim DATA)) RCPT_TO = false := by decide
  have h2 : startsWith (toUpper (trim DATA)) DATA = true := by decide
  have h3 : trim ((trim DATA).drop DATA.length) = [] := by decide
  simp [MailFSM.process_line, Mail.add_rcpt_to, h1, h2, h3]

theorem step_data_dot (name : Str) (m : Mail) (l : Str) (h : trim l = DOT) :
    MailFSM.process_line ⟨State.Data, name, m⟩ l =
      (⟨State.Data, name, m⟩,
        some (lit "250 Ok: queued as " ++
          Nat.toDigits 10 (m.data.getD []).length ++ lit "\n")) := by
  have hb : (trim l == DOT) = true := by simp [h]
  simp [MailFSM.process_line, hb]

theorem dot_quitCond (l : Str) (h : (trim l == DOT) = true) : quitCond l = false := by
  have h' : trim l = DOT := by simpa using h
  rw [quitCond, h']
  decide

theorem quitCond_dot (l : Str) (h : quitCond l = true) : (trim l == DOT) = false := by
  cases hd : trim l == DOT with
  | false => rfl
  | true => rw [dot_quitCond l hd] at h; exact Bool.noConfusion h

theorem step_data_quit (name : Str) (m : Mail) (l : Str) (h : quitCond l = true) :
    MailFSM.process_line ⟨State.Data, name, m⟩ l =
      (⟨State.Quit, name, m⟩, some (lit "221 Bye\n")) := by
  have hd := quitCond_dot l h
  rw [quitCond] at h
  simp [MailFSM.process_line, hd, h]

theorem step_data_body (name : Str) (m : Mail) (l : Str)
    (hd : (trim l == DOT) = false) (hq : quitCond l = false) :
    MailFSM.process_line ⟨State.Data, name, m⟩ l =
      (⟨State.Data, name, m.add_data_chunk l⟩, none) := by
  rw [quitCond] at hq
  simp [MailFSM.process_line, hd, hq]

theorem step_quit_any (name : Str) (m : Mail) (l : Str) :
    MailFSM.process_line ⟨State.Quit, name, m⟩ l =
      (⟨State.Quit, name, m⟩, some (lit "Unknown command")) := rfl

/-! ### Runs over line sequences -/

theorem runLines_cons (fsm : MailFSM) (l : Str) (ls : List Str) :
    runLines fsm (l :: ls) =
      ((runLines (fsm.process_line l).1 ls).1,
        (fsm.process_line l).2 :: (runLines (fsm.process_line l).1 ls).2) := rfl

theorem runLines_append (fsm : MailFSM) (xs ys : List Str) :
    runLines fsm (xs ++ ys) =
      ((runLines (runLines fsm xs).1 ys).1,
        (runLines fsm xs).2 ++ (runLines (runLines fsm xs).1 ys).2) := by
  induction xs generalizing fsm with
  | nil => simp [runLines]
  | cons l ls ih => simp [List.cons_append, runLines_cons, ih]

theorem processLines_cons (fsm : MailFSM) (l : Str) (ls : List Str) :
    processLines fsm (l :: ls) = processLines (fsm.process_line l).1 ls := rfl

theorem processLines_append (fsm : MailFSM) (xs ys : List Str) :
    processLines fsm (xs ++ ys) = processLines (processLines fsm xs) ys := by
  simp [processLines, runLines_append]

theorem run_rcpts (name : Str) (ho mf : Option Str) (rc : List Str) (d : Option Str)
    (rs : List Str) (hrs : ∀ r ∈ rs, Clean r) :
    runLines ⟨State.RcptTo, name, ⟨ho, mf, rc, d⟩⟩
        (rs.map fun r => RCPT_TO ++ ' ' :: r) =
      (⟨State.RcptTo, name, ⟨ho, mf, rc ++ rs, d⟩⟩,
        rs.map fun _ => some (lit "250 Ok\n")) := by
  induction rs generalizing rc with
  | nil => simp [runLines]
  | cons r rs ih =>
      rw [List.map_cons, runLines_cons,
        step_rcpt_rcpt name ⟨ho, mf, rc, d⟩ r (hrs r (by simp))]
      rw [show ({ (⟨ho, mf, rc, d⟩ : Mail) with rcpt_to := rc ++ [r] } : Mail) =
        ⟨ho, mf, rc ++ [r], d⟩ from rfl]
      rw [ih (rc ++ [r]) (fun r' h' => hrs r' (by simp [h']))]
      simp

theorem add_chunk_eq (m : Mail) (b : Str) :
    m.add_data_chunk b = { m with data := some (m.data.getD [] ++ b) } := by
  cases m with
  | mk ho mf rc d => cases d <;> simp [Mail.add_data_chunk]

theorem dataAppend_cons (d : Option Str) (b : Str) (bs : List Str) :
    dataAppend (some (d.getD [] ++ b)) bs = dataAppend d (b :: bs) := by
  cases bs <;> cases d <;> simp [dataAppend, concatAll, List.append_assoc]

theorem run_body (name : Str) (m : Mail) (bs : List Str)
    (hbs : ∀ b ∈ bs, (trim b == DOT) = false ∧ quitCond b = false) :
    runLines ⟨State.Data, name, m⟩ bs =
      (⟨State.Data, name, { m with data := dataAppend m.data bs }⟩,
        bs.map fun _ => none) := by
  induction bs generalizing m with
  | nil => simp [runLines, dataAppend]
  | cons b bs ih =>
      obtain ⟨hd, hq⟩ := hbs b (by simp)
      rw [runLines_cons, step_data_body name m b hd hq]
      rw [ih (m.add_data_chunk b) (fun b' h' => hbs b' (by simp [h']))]
      rw [add_chunk_eq]
      obtain ⟨ho, mf, rc, d⟩ := m
      simp [dataAppend_cons]

/-! ### Forward movement of the state -/

theorem step_mono (fsm : MailFSM) (l : Str) :
    stateIdx fsm.current_state ≤ stateIdx (fsm.process_line l).1.current_state := by
  obtain ⟨st, name, m⟩ := fsm
  cases st <;> dsimp only [MailFSM.process_line] <;> (try split_ifs) <;>
    simp [stateIdx]

theorem step_quit_state (fsm : MailFSM) (l : Str) (h : fsm.current_state = State.Quit) :
    (fsm.process_line l).1 = fsm := by
  obtain ⟨st, name, m⟩ := fsm
  dsimp only at h
  subst h
  rfl

theorem processLines_mono (fsm : MailFSM) (ls : List Str) :
    stateIdx fsm.current_state ≤ stateIdx (processLines fsm ls).current_state := by
  induction ls generalizing fsm with
  | nil => exact Nat.le_refl _
  | cons l ls ih =>
      exact Nat.le_trans (step_mono fsm l) (ih (fsm.process_line l).1)

theorem processLines_quit (fsm : MailFSM) (ls : List Str)
    (h : fsm.current_state = State.Quit) : processLines fsm ls = fsm := by
  induction ls with
  | nil => rfl
  | cons l ls ih =>
      rw [processLines_cons, step_quit_state fsm l h]
      exact ih

theorem step_quit_iff (fsm : MailFSM) (l : Str) :
    (fsm.process_line l).1.current_state = State.Quit ↔
      fsm.current_state = State.Quit ∨
        (fsm.current_state = State.Data ∧ quitCond l = true) := by
  obtain ⟨st, name, m⟩ := fsm
  cases st
  case Data =>
    by_cases hdot : (trim l == DOT) = true
    · rw [step_data_dot name m l (by simpa using hdot)]
      simp [dot_quitCond l hdot]
    · have hd : (trim l == DOT) = false := by
        revert hdot; cases (trim l == DOT) <;> simp
      by_cases hq : quitCond l = true
      · rw [step_data_quit name m l hq]
        simp [hq]
      · have hq' : quitCond l = false := by
          revert hq; cases (quitCond l) <;> simp
        rw [step_data_body name m l hd hq']
        simp [hq']
  all_goals dsimp only [MailFSM.process_line]
  all_goals (try split_ifs) <;> simp [quitCond]

theorem processLines_nil (fsm : MailFSM) : processLines fsm [] = fsm := rfl

theorem is_finished_iff (fsm : MailFSM) :
    fsm.is_finished = true ↔ fsm.current_state = State.Quit := by
  simp [MailFSM.is_finished]

theorem quit_reach_iff (fsm : MailFSM) (ls : List Str) :
    (processLines fsm ls).current_state = State.Quit ↔
      fsm.current_state = State.Quit ∨
        ∃ i, i < ls.length ∧
          (processLines fsm (ls.take i)).current_state = State.Data ∧
          quitCond (ls.getD i []) = true := by
  induction ls generalizing fsm with
  | nil => simp [processLines_nil]
  | cons l ls ih =>
      rw [processLines_cons, ih]
      constructor
      · rintro (hq | ⟨i, hi, hst, hqc⟩)
        · rw [step_quit_iff] at hq
          rcases hq with hq | ⟨hD, hq⟩
          · exact Or.inl hq
          · exact Or.inr ⟨0, by simp, by simpa [processLines_nil] using hD,
              by simpa using hq⟩
        · exact Or.inr ⟨i + 1, by simpa using hi,
            by simpa [List.take_succ_cons, processLines_cons] using hst,
            by simpa using hqc⟩
      · rintro (hq | ⟨i, hi, hst, hqc⟩)
        · exact Or.inl ((step_quit_iff fsm l).mpr (Or.inl hq))
        · cases i with
          | zero =>
              refine Or.inl ((step_quit_iff fsm l).mpr (Or.inr ⟨?_, ?_⟩))
              · simpa [processLines_nil] using hst
              · simpa using hqc
          | succ j =>
              exact Or.inr ⟨j, by simpa using hi,
                by simpa [List.take_succ_cons, processLines_cons] using hst,
                by simpa using hqc⟩

/-! ### Envelope invariants -/

theorem inv_step (fsm : MailFSM) (l : Str)
    (h1 : fsm.current_state = State.New → fsm.mail.helo = none)
    (h2 : fsm.current_state = State.New ∨ fsm.current_state = State.Hello →
      fsm.mail.mail_from = none) :
    ((fsm.process_line l).1.current_state = State.New →
      (fsm.process_line l).1.mail.helo = none) ∧
    ((fsm.process_line l).1.current_state = State.New ∨
        (fsm.process_line l).1.current_state = State.Hello →
      (fsm.process_line l).1.mail.mail_from = none) ∧
    (∀ v, fsm.mail.helo = some v → (fsm.process_line l).1.mail.helo = some v) ∧
    (∀ v, fsm.mail.mail_from = some v →
      (fsm.process_line l).1.mail.mail_from = some v) := by
  obtain ⟨st, name, m⟩ := fsm
  cases st <;> dsimp only [MailFSM.process_line] <;> (try split_ifs) <;>
    simp_all [Mail.add_hello, Mail.add_mail_from, Mail.add_rcpt_to, add_chunk_eq]

theorem processLines_inv (fsm : MailFSM) (ls : List Str)
    (h1 : fsm.current_state = State.New → fsm.mail.helo = none)
    (h2 : fsm.current_state = State.New ∨ fsm.current_state = State.Hello →
      fsm.mail.mail_from = none) :
    ((processLines fsm ls).current_state = State.New →
      (processLines fsm ls).mail.helo = none) ∧
    ((processLines fsm ls).current_state = State.New ∨
        (processLines fsm ls).current_state = State.Hello →
      (processLines fsm ls).mail.mail_from = none) ∧
    (∀ v, fsm.mail.helo = some v → (processLines fsm ls).mail.helo = some v) ∧
    (∀ v, fsm.mail.mail_from = some v →
      (processLines fsm ls).mail.mail_from = some v) := by
  induction ls generalizing fsm with
  | nil => exact ⟨h1, h2, fun v hv => hv, fun v hv => hv⟩
  | cons l ls ih =>
      obtain ⟨g1, g2, g3, g4⟩ := inv_step fsm l h1 h2
      obtain ⟨k1, k2, k3, k4⟩ := ih (fsm.process_line l).1 g1 g2
      exact ⟨k1, k2, fun v hv => k3 v (g3 v hv), fun v hv => k4 v (g4 v hv)⟩

theorem step_rcpt_grow (fsm : MailFSM) (l : Str) :
    ∃ t, (fsm.process_line l).1.mail.rcpt_to = fsm.mail.rcpt_to ++ t := by
  obtain ⟨st, name, m⟩ := fsm
  cases st <;> dsimp only [MailFSM.process_line] <;> (try split_ifs) <;>
    first
      | (refine ⟨[trim ((trim l).drop RCPT_TO.length)], ?_⟩
         simp [Mail.add_rcpt_to]
         done)
      | (refine ⟨[trim ((trim l).drop DATA.length)], ?_⟩
         simp [Mail.add_rcpt_to]
         done)
      | (refine ⟨[], ?_⟩
         simp [Mail.add_hello, Mail.add_mail_from, add_chunk_eq])

theorem processLines_rcpt_grow (fsm : MailFSM) (ls : List Str) :
    ∃ t, (processLines fsm ls).mail.rcpt_to = fsm.mail.rcpt_to ++ t := by
  induction ls generalizing fsm with
  | nil => exact ⟨[], by simp [processLines_nil]⟩
  | cons l ls ih =>
      obtain ⟨t1, h1⟩ := step_rcpt_grow fsm l
      obtain ⟨t2, h2⟩ := ih (fsm.process_line l).1
      exact ⟨t1 ++ t2, by rw [processLines_cons, h2, h1, List.append_assoc]⟩

/-! ### The catch-all arm and keyword disambiguation -/

theorem step_unknown (fsm : MailFSM) (l : Str)
    (hne : fsm.current_state ≠ State.Data)
    (hacc : accepts fsm.current_state l = false) :
    fsm.process_line l = (fsm, some (lit "Unknown command")) := by
  obtain ⟨st, name, m⟩ := fsm
  cases st
  case Data => exact absurd rfl hne
  all_goals dsimp only [MailFSM.process_line]
  all_goals simp only [accepts, Bool.or_eq_false_iff] at hacc
  all_goals simp [hacc]

theorem startsWith_data_not_rcpt (s : Str) (h : startsWith s DATA = true) :
    startsWith s RCPT_TO = false := by
  cases s with
  | nil => revert h; decide
  | cons c t =>
      rw [show DATA = 'D' :: lit "ATA" from rfl] at h
      rw [show RCPT_TO = 'R' :: lit "CPT TO:" from rfl]
      simp only [startsWith, Bool.and_eq_true] at h
      obtain ⟨hc, -⟩ := h
      have hcD : c = 'D' := by simpa using hc
      subst hcD
      simp only [startsWith]
      rw [show ('D' == 'R') = false from by decide]
      simp

theorem step_data_quit_general (fsm : MailFSM) (l : Str)
    (hst : fsm.current_state = State.Data) (hq : quitCond l = true) :
    fsm.process_line l =
      ({ fsm with current_state := State.Quit }, some (lit "221 Bye\n")) := by
  obtain ⟨st, nm, m⟩ := fsm
  dsimp only at hst
  subst hst
  exact step_data_quit nm m l hq

theorem dataAppend_none_getD (bs : List Str) :
    (dataAppend none bs).getD [] = concatAll bs := by
  cases bs <;> simp [dataAppend, concatAll]

theorem runLines_cons_eq (fsm fsm' : MailFSM) (l : Str) (ls : List Str)
    (r : Option Str) (h : fsm.process_line l = (fsm', r)) :
    runLines fsm (l :: ls) = ((runLines fsm' ls).1, r :: (runLines fsm' ls).2) := by
  rw [runLines_cons, h]

theorem runLines_append_eq (fsm fsm₁ : MailFSM) (xs ys : List Str)
    (rs₁ : List (Option Str)) (h : runLines fsm xs = (fsm₁, rs₁)) :
    runLines fsm (xs ++ ys) =
      ((runLines fsm₁ ys).1, rs₁ ++ (runLines fsm₁ ys).2) := by
  rw [runLines_append, h]

/-! ### The claims -/

/-- Claim C2: the state only moves forward along the order
New, Hello (Greeted), MailFrom, RcptTo, Data, Quit (Done): a single call
to `process_line` never decreases the state index, processing any line
sequence never decreases it, and once the state is `Quit` it stays `Quit`
under any further call and any further sequence. -/
theorem C2_theorem (fsm : MailFSM) (line : Str) (ls : List Str) :
    stateIdx fsm.current_state ≤ stateIdx (fsm.process_line line).1.current_state ∧
    (fsm.current_state = State.Quit →
      (fsm.process_line line).1.current_state = State.Quit) ∧
    stateIdx fsm.current_state ≤ stateIdx (processLines fsm ls).current_state ∧
    (fsm.current_state = State.Quit →
      (processLines fsm ls).current_state = State.Quit) :=
  ⟨step_mono fsm line,
    fun h => by rw [step_quit_state fsm line h]; exact h,
    processLines_mono fsm ls,
    fun h => by rw [processLines_quit fsm ls h]; exact h⟩

theorem C2_witness :
    stateIdx (MailFSM.new (lit "s")).current_state ≤
      stateIdx ((MailFSM.new (lit "s")).process_line (lit "HELO a")).1.current_state ∧
    (MailFSM.process_line ⟨State.Quit, lit "s", Mail.new⟩
        (lit "HELO a")).1.current_state = State.Quit :=
  ⟨(C2_theorem (MailFSM.new (lit "s")) (lit "HELO a") []).1,
    (C2_theorem ⟨State.Quit, lit "s", Mail.new⟩ (lit "HELO a") []).2.1 rfl⟩

/-- Claim C3: from a fresh machine, `is_finished` is true iff the state is
`Quit` (the spec's Done), and this happens exactly when some processed line
found the machine in the `Data` state and had a trimmed upper-cased form
starting with QUIT — and that very call answered "221 Bye". -/
theorem C3_theorem (name : Str) (ls : List Str) :
    ((processLines (MailFSM.new name) ls).is_finished = true ↔
      ∃ i, i < ls.length ∧
        (processLines (MailFSM.new name) (ls.take i)).current_state = State.Data ∧
        quitCond (ls.getD i []) = true ∧
        ((processLines (MailFSM.new name) (ls.take i)).process_line
            (ls.getD i [])).2 = some (lit "221 Bye\n")) ∧
    ∀ fsm : MailFSM, fsm.is_finished = true ↔ fsm.current_state = State.Quit := by
  refine ⟨?_, is_finished_iff⟩
  rw [is_finished_iff, quit_reach_iff]
  have hnew : ¬ (MailFSM.new name).current_state = State.Quit := by
    simp [MailFSM.new]
  constructor
  · rintro (hq | ⟨i, hi, hst, hqc⟩)
    · exact absurd hq hnew
    · refine ⟨i, hi, hst, hqc, ?_⟩
      rw [step_data_quit_general _ _ hst hqc]
  · rintro ⟨i, hi, hst, hqc, -⟩
    exact Or.inr ⟨i, hi, hst, hqc⟩

theorem C3_witness :
    (processLines (MailFSM.new (lit "s"))
        [lit "HELO a", lit "MAIL FROM: x", lit "RCPT TO: y", lit "DATA",
          lit "QUIT"]).is_finished = true :=
  (C3_theorem (lit "s")
      [lit "HELO a", lit "MAIL FROM: x", lit "RCPT TO: y", lit "DATA",
        lit "QUIT"]).1.mpr
    ⟨4, by decide, by decide, by decide, by decide⟩

/-- Claim C4: in any state other than `Data`, a line matching none of the
state's accepted commands gets the generic unknown-command response and
leaves the whole machine — state and every envelope field — unchanged. -/
theorem C4_theorem (fsm : MailFSM) (l : Str)
    (hne : fsm.current_state ≠ State.Data)
    (hacc : accepts fsm.current_state l = false) :
    fsm.process_line l = (fsm, some (lit "Unknown command")) :=
  step_unknown fsm l hne hacc

theorem C4_witness :
    (MailFSM.new (lit "s")).process_line (lit "MAIL FROM: x") =
      (MailFSM.new (lit "s"), some (lit "Unknown command")) :=
  C4_theorem (MailFSM.new (lit "s")) (lit "MAIL FROM: x") (by decide) (by decide)

/-- Claim C5: in the `Data` state, a line that trims to "." answers
"250 Ok: queued as N" with N the exact length of the accumulated data
(0 when no body line was accumulated), and the machine — state and data
included — is unchanged. -/
theorem C5_theorem (fsm : MailFSM) (l : Str)
    (hst : fsm.current_state = State.Data) (hdot : trim l = DOT) :
    fsm.process_line l =
      (fsm, some (lit "250 Ok: queued as " ++
        Nat.toDigits 10 (fsm.mail.data.getD []).length ++ lit "\n")) := by
  obtain ⟨st, nm, m⟩ := fsm
  dsimp only at hst
  subst hst
  exact step_data_dot nm m l hdot

theorem C5_witness :
    (MailFSM.process_line
        ⟨State.Data, lit "s",
          (Mail.new.add_data_chunk (lit "ab")).add_data_chunk (lit "cd")⟩
        (lit ".")).2 = some (lit "250 Ok: queued as 4\n") := by
  rw [C5_theorem
    ⟨State.Data, lit "s",
      (Mail.new.add_data_chunk (lit "ab")).add_data_chunk (lit "cd")⟩
    (lit ".") rfl (by decide)]
  decide

/-- Claim C6: in the `Data` state, lines that neither trim to "." nor
start (trimmed, upper-cased) with QUIT are appended raw to the data field,
produce no response, and keep the state `Data`; after a whole list of such
body lines the data field is their delimiter-free concatenation. -/
theorem C6_theorem (fsm : MailFSM) (bs : List Str)
    (hst : fsm.current_state = State.Data)
    (hbs : ∀ b ∈ bs, (trim b == DOT) = false ∧ quitCond b = false) :
    runLines fsm bs =
      ({ fsm with mail := { fsm.mail with data := dataAppend fsm.mail.data bs } },
        bs.map fun _ => none) := by
  obtain ⟨st, nm, m⟩ := fsm
  dsimp only at hst
  subst hst
  exact run_body nm m bs hbs

theorem C6_witness :
    runLines ⟨State.Data, lit "s", Mail.new⟩ [lit " a ", lit "b"] =
      (⟨State.Data, lit "s", { Mail.new with data := some (lit " a b") }⟩,
        [none, none]) := by
  rw [C6_theorem ⟨State.Data, lit "s", Mail.new⟩ [lit " a ", lit "b"] rfl (by decide)]
  decide

/-- Claim C7: over any run from a fresh machine, a `helo` value once set is
never overwritten, a `mail_from` value once set is never overwritten, and
the `rcpt_to` list only grows at its end — earlier entries are never
removed or reordered. -/
theorem C7_theorem (name v w : Str) (ls ls' : List Str) :
    ((processLines (MailFSM.new name) ls).mail.helo = some v →
      (processLines (MailFSM.new name) (ls ++ ls')).mail.helo = some v) ∧
    ((processLines (MailFSM.new name) ls).mail.mail_from = some w →
      (processLines (MailFSM.new name) (ls ++ ls')).mail.mail_from = some w) ∧
    ∃ t, (processLines (MailFSM.new name) (ls ++ ls')).mail.rcpt_to =
      (processLines (MailFSM.new name) ls).mail.rcpt_to ++ t := by
  obtain ⟨i1, i2, -, -⟩ :=
    processLines_inv (MailFSM.new name) ls (fun _ => rfl) (fun _ => rfl)
  obtain ⟨-, -, p3, p4⟩ :=
    processLines_inv (processLines (MailFSM.new name) ls) ls' i1 i2
  rw [processLines_append]
  exact ⟨fun hv => p3 v hv, fun hv => p4 w hv,
    processLines_rcpt_grow (processLines (MailFSM.new name) ls) ls'⟩

theorem C7_witness :
    (processLines (MailFSM.new (lit "s"))
        ([lit "HELO a"] ++ [lit "EHLO b"])).mail.helo = some (lit "a") :=
  (C7_theorem (lit "s") (lit "a") (lit "a") [lit "HELO a"] [lit "EHLO b"]).1
    (by decide)

/-- Claim C8: in the `RcptTo` state, a line whose trimmed upper-cased form
starts with DATA moves the machine to `Data`, answers the 354 banner, and
appends the trimmed remainder of the line after the DATA keyword to
`rcpt_to` rather than discarding it; no non-emptiness of `rcpt_to` is
required. -/
theorem C8_theorem (fsm : MailFSM) (l : Str)
    (hst : fsm.current_state = State.RcptTo)
    (hdata : startsWith (toUpper (trim l)) DATA = true) :
    fsm.process_line l =
      ({ fsm with
          current_state := State.Data
          mail := { fsm.mail with
            rcpt_to := fsm.mail.rcpt_to ++ [trim ((trim l).drop DATA.length)] } },
        some (lit "354 End data with <CR><LF>.<CR><LF>\n")) := by
  obtain ⟨st, nm, m⟩ := fsm
  dsimp only at hst
  subst hst
  have hneg := startsWith_data_not_rcpt _ hdata
  dsimp only [MailFSM.process_line]
  simp [hneg, hdata, Mail.add_rcpt_to]

theorem C8_witness :
    MailFSM.process_line ⟨State.RcptTo, lit "s", Mail.new⟩ (lit "DATA now") =
      (⟨State.Data, lit "s", { Mail.new with rcpt_to := [lit "now"] }⟩,
        some (lit "354 End data with <CR><LF>.<CR><LF>\n")) := by
  rw [C8_theorem ⟨State.RcptTo, lit "s", Mail.new⟩ (lit "DATA now") rfl (by decide)]
  decide

theorem getLast_nl (x y : Str) (hy : y.getLast? = some '\n') :
    (x ++ y).getLast? = some '\n' := by
  rw [List.getLast?_append, hy]
  rfl

/-- Claim C9 fails as stated: the generic unknown-command response returned
by `process_line` is exactly "Unknown command" with no trailing newline. -/
theorem C9_counterexample :
    ((MailFSM.new (lit "my.server")).process_line (lit "XYZ")).2 =
        some (lit "Unknown command") ∧
    (lit "Unknown command").getLast? ≠ some '\n' := by decide

/-- Claim C9 (amended): every response `process_line` returns other than
the generic unknown-command response is newline-terminated and its text is
exactly as in the protocol surface; the unknown-command response is exactly
"Unknown command" with no trailing newline; and `greeting` returns the
newline-terminated banner "220 server-name simple-smtp". -/
theorem C9_theorem (fsm : MailFSM) (l : Str) :
    (∀ r, (fsm.process_line l).2 = some r →
      (r = lit "Unknown command" ∧ r.getLast? ≠ some '\n') ∨
      (r.getLast? = some '\n' ∧
        (r = lit "250 " ++ fsm.server_name ++ lit "\n" ∨
          r = lit "250 Ok\n" ∨
          r = lit "354 End data with <CR><LF>.<CR><LF>\n" ∨
          r = lit "250 Ok: queued as " ++
            Nat.toDigits 10 (fsm.mail.data.getD []).length ++ lit "\n" ∨
          r = lit "221 Bye\n"))) ∧
    fsm.greeting = lit "220 " ++ fsm.server_name ++ lit " simple-smtp\n" ∧
    fsm.greeting.getLast? = some '\n' := by
  refine ⟨?_, rfl, getLast_nl (lit "220 " ++ fsm.server_name)
    (lit " simple-smtp\n") (by decide)⟩
  obtain ⟨st, nm, m⟩ := fsm
  cases st <;> dsimp only [MailFSM.process_line] <;> (try split_ifs) <;>
    intro r hr <;>
    first
      | exact Option.noConfusion hr
      | exact hr.elim
      | (injection hr with h
         subst h
         first
           | exact Or.inl ⟨rfl, by decide⟩
           | exact Or.inr ⟨by decide, by simp⟩
           | exact Or.inr ⟨getLast_nl _ _ (by decide), by simp⟩)

theorem C9_witness :
    (lit "250 s\n" = lit "Unknown command" ∧
        (lit "250 s\n").getLast? ≠ some '\n') ∨
    ((lit "250 s\n").getLast? = some '\n' ∧
      (lit "250 s\n" = lit "250 " ++ (MailFSM.new (lit "s")).server_name ++ lit "\n" ∨
        lit "250 s\n" = lit "250 Ok\n" ∨
        lit "250 s\n" = lit "354 End data with <CR><LF>.<CR><LF>\n" ∨
        lit "250 s\n" = lit "250 Ok: queued as " ++
          Nat.toDigits 10
            ((MailFSM.new (lit "s")).mail.data.getD []).length ++ lit "\n" ∨
        lit "250 s\n" = lit "221 Bye\n")) :=
  (C9_theorem (MailFSM.new (lit "s")) (lit "HELO a")).1 (lit "250 s\n") (by decide)

/-- Claim C1 fails as stated in its final-envelope clause: on the concrete
scenario itself the only supplied recipient argument is "y", yet the DATA
transition also appends the (empty) remainder of the DATA line, so the
final `rcpt_to` is ["y", ""] and does not exactly reflect the supplied
arguments. -/
theorem C1_counterexample :
    (processLines (MailFSM.new (lit "my.server"))
        [lit "HELO a", lit "MAIL FROM: x", lit "RCPT TO: y", lit "DATA",
          lit "hi", lit ".", lit "QUIT"]).mail.rcpt_to = [lit "y", []] ∧
    (processLines (MailFSM.new (lit "my.server"))
        [lit "HELO a", lit "MAIL FROM: x", lit "RCPT TO: y", lit "DATA",
          lit "hi", lit ".", lit "QUIT"]).mail.rcpt_to ≠ [lit "y"] := by
  decide

/-- Claim C1 (amended): for every valid sequence
HELO → MAIL FROM → RCPT TO(+) → DATA → body* → "." → QUIT with clean
arguments, the run produces exactly the responses of the protocol surface
(none for body lines, "250 Ok: queued as N" with N the accumulated body
length), the final envelope holds the supplied arguments in order except
that `rcpt_to` additionally ends with the trimmed remainder of the DATA
line (empty here), and `is_finished` is false before the QUIT line and
true after it. -/
theorem C1_theorem (name a f : Str) (rs bs : List Str)
    (ha : Clean a) (hf : Clean f) (hrs : ∀ r ∈ rs, Clean r) (hrs0 : rs ≠ [])
    (hbs : ∀ b ∈ bs, (trim b == DOT) = false ∧ quitCond b = false) :
    runLines (MailFSM.new name)
        ((HELO ++ ' ' :: a) :: (MAIL_FROM ++ ' ' :: f) ::
          ((rs.map fun r => RCPT_TO ++ ' ' :: r) ++ [DATA] ++ bs ++ [DOT, QUIT])) =
      (⟨State.Quit, name, ⟨some a, some f, rs ++ [[]], dataAppend none bs⟩⟩,
        some (lit "250 " ++ name ++ lit "\n") :: some (lit "250 Ok\n") ::
          ((rs.map fun _ => some (lit "250 Ok\n")) ++
            [some (lit "354 End data with <CR><LF>.<CR><LF>\n")] ++
            (bs.map fun _ => none) ++
            [some (lit "250 Ok: queued as " ++
                Nat.toDigits 10 (concatAll bs).length ++ lit "\n"),
              some (lit "221 Bye\n")])) ∧
    (processLines (MailFSM.new name)
        ((HELO ++ ' ' :: a) :: (MAIL_FROM ++ ' ' :: f) ::
          ((rs.map fun r => RCPT_TO ++ ' ' :: r) ++ [DATA] ++ bs ++
            [DOT]))).is_finished = false := by
  obtain ⟨r0, rest, rfl⟩ : ∃ r0 rest, rs = r0 :: rest := by
    cases rs with
    | nil => exact absurd rfl hrs0
    | cons x xs => exact ⟨x, xs, rfl⟩
  have hr0 : Clean r0 := hrs r0 (by simp)
  have hrest : ∀ r ∈ rest, Clean r := fun r h => hrs r (by simp [h])
  have h1 : MailFSM.process_line (MailFSM.new name) (HELO ++ ' ' :: a) =
      (⟨State.Hello, name, ⟨some a, none, [], none⟩⟩,
        some (lit "250 " ++ name ++ lit "\n")) :=
    step_new_helo name Mail.new a ha
  have h2 : MailFSM.process_line ⟨State.Hello, name, ⟨some a, none, [], none⟩⟩
      (MAIL_FROM ++ ' ' :: f) =
      (⟨State.MailFrom, name, ⟨some a, some f, [], none⟩⟩,
        some (lit "250 Ok\n")) :=
    step_hello_mail name ⟨some a, none, [], none⟩ f hf
  have h3 : MailFSM.process_line ⟨State.MailFrom, name, ⟨some a, some f, [], none⟩⟩
      (RCPT_TO ++ ' ' :: r0) =
      (⟨State.RcptTo, name, ⟨some a, some f, [r0], none⟩⟩,
        some (lit "250 Ok\n")) :=
    step_mailfrom_rcpt name ⟨some a, some f, [], none⟩ r0 hr0
  have h4 : runLines ⟨State.RcptTo, name, ⟨some a, some f, [r0], none⟩⟩
      (rest.map fun r => RCPT_TO ++ ' ' :: r) =
      (⟨State.RcptTo, name, ⟨some a, some f, r0 :: rest, none⟩⟩,
        rest.map fun _ => some (lit "250 Ok\n")) := by
    have h := run_rcpts name (some a) (some f) [r0] none rest hrest
    simpa using h
  have h5 : MailFSM.process_line
      ⟨State.RcptTo, name, ⟨some a, some f, r0 :: rest, none⟩⟩ DATA =
      (⟨State.Data, name, ⟨some a, some f, (r0 :: rest) ++ [[]], none⟩⟩,
        some (lit "354 End data with <CR><LF>.<CR><LF>\n")) :=
    step_rcpt_data name ⟨some a, some f, r0 :: rest, none⟩
  have h6 : runLines
      ⟨State.Data, name, ⟨some a, some f, (r0 :: rest) ++ [[]], none⟩⟩ bs =
      (⟨State.Data, name,
          ⟨some a, some f, (r0 :: rest) ++ [[]], dataAppend none bs⟩⟩,
        bs.map fun _ => none) :=
    run_body name ⟨some a, some f, (r0 :: rest) ++ [[]], none⟩ bs hbs
  have h7 : MailFSM.process_line
      ⟨State.Data, name,
        ⟨some a, some f, (r0 :: rest) ++ [[]], dataAppend none bs⟩⟩ DOT =
      (⟨State.Data, name,
          ⟨some a, some f, (r0 :: rest) ++ [[]], dataAppend none bs⟩⟩,
        some (lit "250 Ok: queued as " ++
          Nat.toDigits 10 (concatAll bs).length ++ lit "\n")) := by
    have h := step_data_dot name
      ⟨some a, some f, (r0 :: rest) ++ [[]], dataAppend none bs⟩ DOT (by decide)
    dsimp only at h
    rw [dataAppend_none_getD] at h
    exact h
  have h8 : MailFSM.process_line
      ⟨State.Data, name,
        ⟨some a, some f, (r0 :: rest) ++ [[]], dataAppend none bs⟩⟩ QUIT =
      (⟨State.Quit, name,
          ⟨some a, some f, (r0 :: rest) ++ [[]], dataAppend none bs⟩⟩,
        some (lit "221 Bye\n")) :=
    step_data_quit name
      ⟨some a, some f, (r0 :: rest) ++ [[]], dataAppend none bs⟩ QUIT (by decide)
  constructor
  · simp only [List.map_cons, List.cons_append, List.append_assoc,
      List.singleton_append, List.nil_append]
    rw [runLines_cons_eq _ _ _ _ _ h1, runLines_cons_eq _ _ _ _ _ h2,
      runLines_cons_eq _ _ _ _ _ h3, runLines_append_eq _ _ _ _ _ h4,
      runLines_cons_eq _ _ _ _ _ h5, runLines_append_eq _ _ _ _ _ h6,
      runLines_cons_eq _ _ _ _ _ h7, runLines_cons_eq _ _ _ _ _ h8]
    simp [runLines]
  · simp only [processLines, List.map_cons, List.cons_append, List.append_assoc,
      List.singleton_append, List.nil_append]
    rw [runLines_cons_eq _ _ _ _ _ h1, runLines_cons_eq _ _ _ _ _ h2,
      runLines_cons_eq _ _ _ _ _ h3, runLines_append_eq _ _ _ _ _ h4,
      runLines_cons_eq _ _ _ _ _ h5, runLines_append_eq _ _ _ _ _ h6,
      runLines_cons_eq _ _ _ _ _ h7]
    rfl

theorem C1_witness :
    runLines (MailFSM.new (lit "my.server"))
        ((HELO ++ ' ' :: lit "a") :: (MAIL_FROM ++ ' ' :: lit "x") ::
          (([lit "y"].map fun r => RCPT_TO ++ ' ' :: r) ++ [DATA] ++ [lit "hi"] ++
            [DOT, QUIT])) =
      (⟨State.Quit, lit "my.server",
          ⟨some (lit "a"), some (lit "x"), [lit "y"] ++ [[]],
            dataAppend none [lit "hi"]⟩⟩,
        some (lit "250 " ++ lit "my.server" ++ lit "\n") :: some (lit "250 Ok\n") ::
          (([lit "y"].map fun _ => some (lit "250 Ok\n")) ++
            [some (lit "354 End data with <CR><LF>.<CR><LF>\n")] ++
            ([lit "hi"].map fun _ => none) ++
            [some (lit "250 Ok: queued as " ++
                Nat.toDigits 10 (concatAll [lit "hi"]).length ++ lit "\n"),
              some (lit "221 Bye\n")])) ∧
    (processLines (MailFSM.new (lit "my.server"))
        ((HELO ++ ' ' :: lit "a") :: (MAIL_FROM ++ ' ' :: lit "x") ::
          (([lit "y"].map fun r => RCPT_TO ++ ' ' :: r) ++ [DATA] ++ [lit "hi"] ++
            [DOT]))).is_finished = false :=
  C1_theorem (lit "my.server") (lit "a") (lit "x") [lit "y"] [lit "hi"]
    (by decide) (by decide) (by decide) (by decide) (by decide)

/-! ### The worker pool -/

theorem poolStep_capacity {s t : PoolState} (h : PoolStep s t) :
    t.capacity = s.capacity := by
  cases h <;> rfl

theorem poolStep_running {s t : PoolState} (h : PoolStep s t)
    (hb : s.running ≤ s.capacity) : t.running ≤ t.capacity := by
  cases h with
  | submit N r p => exact hb
  | dispatch N r p hlt => exact hlt
  | finish N r p => exact Nat.le_trans (Nat.le_succ r) hb

theorem poolReach_capacity {s t : PoolState} (h : PoolReach s t) :
    t.capacity = s.capacity := by
  induction h with
  | refl => rfl
  | tail h st ih => rw [poolStep_capacity st, ih]

theorem poolReach_bound {s t : PoolState} (h : PoolReach s t)
    (hb : s.running ≤ s.capacity) : t.running ≤ t.capacity := by
  induction h with
  | refl => exact hb
  | tail h st ih => exact poolStep_running st ih

theorem poolReach_trans {s t u : PoolState} (h1 : PoolReach s t)
    (h2 : PoolReach t u) : PoolReach s u := by
  induction h2 with
  | refl => exact h1
  | tail h st ih => exact PoolReach.tail ih st

theorem pool_submits (N p : Nat) : PoolReach ⟨N, 0, 0⟩ ⟨N, 0, p⟩ := by
  induction p with
  | zero => exact PoolReach.refl _
  | succ q ih => exact PoolReach.tail ih (PoolStep.submit N 0 q)

theorem pool_dispatches (N k : Nat) (hk : k ≤ N) :
    ∀ p : Nat, PoolReach ⟨N, 0, p + k⟩ ⟨N, k, p⟩ := by
  induction k with
  | zero => exact fun p => PoolReach.refl _
  | succ k ih =>
      intro p
      have h1 : PoolReach ⟨N, 0, (p + 1) + k⟩ ⟨N, k, p + 1⟩ :=
        ih (Nat.le_of_succ_le hk) (p + 1)
      have h2 : PoolStep ⟨N, k, p + 1⟩ ⟨N, k + 1, p⟩ :=
        PoolStep.dispatch N k p hk
      have hpk : p + (k + 1) = (p + 1) + k := by omega
      rw [hpk]
      exact PoolReach.tail h1 h2

/-- Claim C10 (spec-modelled, the pool's source file is absent from the
repository): in the pool model of the design document, every state
reachable from a fresh pool of capacity N runs at most N jobs; and when
M > N blocking jobs are submitted, the configuration with exactly N jobs
running and the remaining M − N pending is reached, and no pool event can
push the running count above N from there. -/
theorem C10_theorem (N M : Nat) (hN : 1 ≤ N) (hM : N < M) :
    (∀ s, PoolReach ⟨N, 0, 0⟩ s → s.running ≤ N) ∧
    PoolReach ⟨N, 0, 0⟩ ⟨N, N, M - N⟩ ∧
    (∀ s, PoolStep ⟨N, N, M - N⟩ s → s.running ≤ N) := by
  refine ⟨?_, ?_, ?_⟩
  · intro s hs
    have hb := poolReach_bound hs (Nat.zero_le N)
    rw [poolReach_capacity hs] at hb
    exact hb
  · have h1 := pool_submits N M
    have h2 := pool_dispatches N N (Nat.le_refl N) (M - N)
    have hmn : (M - N) + N = M := by omega
    rw [hmn] at h2
    exact poolReach_trans h1 h2
  · intro s hs
    have hb := poolStep_running hs (Nat.le_refl N)
    rw [poolStep_capacity hs] at hb
    exact hb

theorem C10_witness :
    (∀ s, PoolReach ⟨2, 0, 0⟩ s → s.running ≤ 2) ∧
    PoolReach ⟨2, 0, 0⟩ ⟨2, 2, 5 - 2⟩ ∧
    (∀ s, PoolStep ⟨2, 2, 5 - 2⟩ s → s.running ≤ 2) :=
  C10_theorem 2 5 (by decide) (by decide)

end SimpleSmtp
